import Mathlib

/-!
# Verification of the document-processing service

A shallow embedding of `python-services/docling_service.py` and proofs about
its plain-text chunker, its result-shaping branches, and the upload endpoint's
temporary-file lifecycle.

Python strings are modelled as Lean `String`s (code points, matching Python's
`len`); the chunker core works on `List Char`.  The filesystem and the external
document loader are modelled as an explicit environment: reading a file or
loading documents either succeeds with a value or raises an exception carried
as an error string, exactly the two outcomes the Python code distinguishes.
-/

namespace DoclingService

/-- The whitespace characters stripped by Python's `str.strip()` for ASCII
text: space, tab, newline, carriage return, vertical tab, form feed. -/
def pyIsSpace (c : Char) : Bool :=
  c = ' ' || c = '\t' || c = '\n' || c = '\r' || c = '\x0b' || c = '\x0c'

/-- Core of Python's `str.strip()`: drop whitespace from both ends. -/
def stripC (l : List Char) : List Char :=
  (l.dropWhile pyIsSpace).rdropWhile pyIsSpace

/-- Python's `str.strip()` on the string level. -/
def pyStrip (s : String) : String :=
  String.mk (stripC s.data)

/-- Core of Python's `str.split('\n')`: splitting on every newline produces
one more part than there are separators (an empty string yields `[[]]`). -/
def splitNl : List Char → List (List Char)
  | [] => [[]]
  | c :: rest =>
    if c = '\n' then [] :: splitNl rest
    else
      match splitNl rest with
      | [] => [[c]]
      | g :: gs => (c :: g) :: gs

/-- Python's `content.split('\n')` on the string level. -/
def pySplit (s : String) : List String :=
  (splitNl s.data).map String.mk

/-- Python's `str.lower()` (ASCII case folding). -/
def pyLower (s : String) : String :=
  String.mk (s.data.map Char.toLower)

/-- `sep.join(parts)` on `List Char`, with a fixed one-character separator:
used to state "contents separated by newlines". -/
def joinNlC : List (List Char) → List Char
  | [] => []
  | [x] => x
  | x :: xs => x ++ '\n' :: joinNlC xs

/-- `"\n".join` on the string level. -/
def joinNl : List String → String
  | [] => ""
  | [x] => x
  | x :: xs => x ++ "\n" ++ joinNl xs

/-- `"\n\n".join` as used by the markdown branch for loader documents. -/
def joinDoubleNl : List String → String
  | [] => ""
  | [x] => x
  | x :: xs => x ++ "\n\n" ++ joinDoubleNl xs

/-- `pathlib.Path(p).suffix`: the final dot-suffix of the last path
component; empty when the name has no dot, starts with its only dot, or
ends with the dot. -/
def pySuffix (p : String) : String :=
  let name := (p.data.reverse.takeWhile (fun c => c ≠ '/')).reverse
  let afterDot := name.reverse.takeWhile (fun c => c ≠ '.')
  if afterDot.length + 1 < name.length ∧ 0 < afterDot.length then
    String.mk ('.' :: afterDot.reverse)
  else ""

/-- Metadata values appearing in the service's dictionaries. -/
inductive MetaVal where
  | s : String → MetaVal
  | n : Nat → MetaVal
  deriving DecidableEq, Repr

/-- Insertion-order-preserving dictionary assignment `d[k] = v`: an existing
key keeps its position and gets the new value; a new key is appended. -/
def dictSet (d : List (String × MetaVal)) (k : String) (v : MetaVal) :
    List (String × MetaVal) :=
  if d.any (fun kv => kv.1 = k) then
    d.map (fun kv => if kv.1 = k then (k, v) else kv)
  else d ++ [(k, v)]

/-- Python's `base.update(overlay)`. -/
def dictUpdate (base overlay : List (String × MetaVal)) :
    List (String × MetaVal) :=
  overlay.foldl (fun acc kv => dictSet acc kv.1 kv.2) base

/-- A chunk dictionary `{"chunk_id": ..., "content": ..., "metadata": ...}`. -/
structure ChunkRec where
  chunk_id : Nat
  content : String
  metadata : List (String × MetaVal)
  deriving DecidableEq, Repr

/-- A document returned by the external `DoclingLoader`. -/
structure Doc where
  page_content : String
  metadata : List (String × MetaVal)
  deriving DecidableEq, Repr

/-- The `DocumentProcessingResult` response model; `chunks` and `error`
default to `None`. -/
structure DocumentProcessingResult where
  success : Bool
  markdown_content : String
  metadata : List (String × MetaVal)
  chunks : Option (List ChunkRec) := none
  error : Option String := none
  deriving DecidableEq, Repr

/-- The environment a single `process_document` call runs in: whether the
file exists, what reading it as UTF-8 text yields (or the exception it
raises), its size on disk, and what the external loader yields (or the
exception it raises). -/
structure Env where
  fileExists : Bool
  readResult : Except String String
  fileSize : Nat
  loaderResult : Except String (List Doc)

/-- The result built by the `except` handler: `success=False`, empty
content and metadata, the exception's string representation as `error`. -/
def errResult (e : String) : DocumentProcessingResult :=
  { success := false, markdown_content := "", metadata := [],
    chunks := none, error := some e }

/-- The chunking loop of `process_document` for `.txt` files, one step per
source line: flush when the buffer plus the next line passes 500 characters,
emit buffers stripped, silently drop whitespace-only buffers, and flush any
remaining buffer at the end.  Returns `(chunk_id, content)` pairs. -/
def chunkCore : List (List Char) → List Char → Nat → List (Nat × List Char)
  | [], current, id =>
    if stripC current = [] then [] else [(id, stripC current)]
  | line :: rest, current, id =>
    if current.length + line.length > 500 then
      if stripC current = [] then
        chunkCore rest (line ++ ['\n']) id
      else
        (id, stripC current) :: chunkCore rest (line ++ ['\n']) (id + 1)
    else
      chunkCore rest (current ++ line ++ ['\n']) id

/-- The `.txt` chunking branch: split the content on newlines, run the
chunk loop, and build the chunk dictionaries with their metadata. -/
def txtChunks (content : String) (file_path : String) : List ChunkRec :=
  (chunkCore (splitNl content.data) [] 0).map fun p =>
    { chunk_id := p.1, content := String.mk p.2,
      metadata := [("chunk_index", .n p.1), ("source", .s file_path)] }

/-- `DoclingProcessor.process_document`: the single try/except body of the
Python method, with every exception site routed to `errResult`. -/
def process_document (env : Env) (file_path : String)
    (export_type : String) : DocumentProcessingResult :=
  if !env.fileExists then
    errResult ("File not found: " ++ file_path)
  else
    let file_extension := pyLower (pySuffix file_path)
    if file_extension = ".txt" then
      match env.readResult with
      | .error e => errResult e
      | .ok content =>
        let metadata : List (String × MetaVal) :=
          [("processing_method", .s "langchain_docling_txt"),
           ("export_type", .s export_type),
           ("file_type", .s "txt"),
           ("total_length", .n content.length),
           ("file_size", .n env.fileSize)]
        if pyLower export_type = "chunks" then
          let chunks := txtChunks content file_path
          { success := true, markdown_content := content,
            metadata := dictSet metadata "total_chunks" (.n chunks.length),
            chunks := some chunks, error := none }
        else
          { success := true, markdown_content := content,
            metadata := metadata, chunks := none, error := none }
    else
      match env.loaderResult with
      | .error e => errResult e
      | .ok docs =>
        if docs.isEmpty then errResult "No documents were processed"
        else if pyLower export_type = "chunks" then
          let chunks := docs.enum.map fun p =>
            ChunkRec.mk p.1 p.2.page_content p.2.metadata
          let total_content :=
            docs.foldl (fun acc d => acc ++ d.page_content ++ "\n\n") ""
          let combined_metadata : List (String × MetaVal) :=
            [("processing_method", .s "langchain_docling"),
             ("export_type", .s "chunks"),
             ("total_chunks", .n chunks.length),
             ("total_length", .n total_content.length)]
          let combined_metadata :=
            match chunks with
            | [] => combined_metadata
            | c :: _ =>
              if c.metadata = [] then combined_metadata
              else dictUpdate combined_metadata c.metadata
          { success := true, markdown_content := pyStrip total_content,
            metadata := combined_metadata, chunks := some chunks,
            error := none }
        else
          let markdown_content := joinDoubleNl (docs.map (·.page_content))
          let metadata :=
            match docs with
            | [] => ([] : List (String × MetaVal))
            | d :: _ => d.metadata
          let metadata := dictUpdate metadata
            [("processing_method", .s "langchain_docling"),
             ("export_type", .s "markdown"),
             ("total_documents", .n docs.length),
             ("total_length", .n markdown_content.length)]
          { success := true, markdown_content := markdown_content,
            metadata := metadata, chunks := none, error := none }

/-- The specification's reference chunking algorithm, transcribed from its
words: lines are greedily accumulated into a buffer; a chunk is flushed
exactly when adding the next line would make the buffer exceed 500
characters (never splitting a line); ids increase monotonically from 0; a
non-empty trailing buffer is flushed as a final chunk.  The buffer and the
overflow test are those of the code; the spec's flush of every non-empty
buffer, un-stripped, is taken literally. -/
def specChunkCore : List (List Char) → List Char → Nat → List (Nat × List Char)
  | [], buf, id => if buf = [] then [] else [(id, buf)]
  | line :: rest, buf, id =>
    if buf.length + line.length > 500 then
      if buf = [] then specChunkCore rest (line ++ ['\n']) id
      else (id, buf) :: specChunkCore rest (line ++ ['\n']) (id + 1)
    else
      specChunkCore rest (buf ++ line ++ ['\n']) id

/-- State of the amended reference chunker: the line buffer, the next id to
assign, and the chunks emitted so far. -/
structure ChunkState where
  buf : List Char
  nextId : Nat
  out : List (Nat × List Char)
  deriving Repr

/-- Flush the buffer: emit it stripped with the next id, unless it is
whitespace-only, in which case nothing is emitted and no id is consumed. -/
def flushBuf (st : ChunkState) : ChunkState :=
  if stripC st.buf = [] then st
  else { st with nextId := st.nextId + 1,
                 out := st.out ++ [(st.nextId, stripC st.buf)] }

/-- One line of the amended reference chunker: flush first when the buffer
plus the line passes 500 characters, then append the line (and its newline)
to the running buffer. -/
def refStep (st : ChunkState) (line : List Char) : ChunkState :=
  if st.buf.length + line.length > 500 then
    { flushBuf st with buf := line ++ ['\n'] }
  else
    { st with buf := st.buf ++ line ++ ['\n'] }

/-- The amended reference chunker: fold `refStep` over the lines and flush
the trailing buffer. -/
def refChunks (lines : List (List Char)) : List (Nat × List Char) :=
  (flushBuf (lines.foldl refStep ⟨[], 0, []⟩)).out

/-- The amended reference chunker lifted to the chunk dictionaries the
service returns. -/
def refTxtChunks (content : String) (file_path : String) : List ChunkRec :=
  (refChunks (splitNl content.data)).map fun p =>
    { chunk_id := p.1, content := String.mk p.2,
      metadata := [("chunk_index", .n p.1), ("source", .s file_path)] }

/-- The buffer built from a group of already-consumed lines, each followed
by its newline: the value of `current_chunk` during the loop. -/
def accum (gs : List (List Char)) : List Char :=
  (gs.map (fun g => g ++ ['\n'])).flatten

/-- The exception raised by the body of `process_document` in a given
environment, if any: the file-existence check, reading a `.txt` file, the
loader call, and the empty-loader-result check, in program order. -/
def raisedError (env : Env) (fp : String) : Option String :=
  if !env.fileExists then some ("File not found: " ++ fp)
  else if pyLower (pySuffix fp) = ".txt" then
    match env.readResult with
    | .error e => some e
    | .ok _ => none
  else
    match env.loaderResult with
    | .error e => some e
    | .ok docs => if docs.isEmpty then some "No documents were processed" else none

/-- An `HTTPException` raised by the endpoint layer. -/
structure HttpError where
  status : Nat
  detail : String
  deriving DecidableEq, Repr

/-- Whether the uniquely named temporary file created for the current
request is on disk. -/
structure TempFs where
  tempExists : Bool
  deriving DecidableEq, Repr

/-- The hard-coded list the upload endpoint checks extensions against. -/
def supported_formats : List String :=
  [".pdf", ".docx", ".doc", ".pptx", ".html", ".txt"]

/-- Environment for one `/process-document` request: the uploaded file's
name, the outcome of reading the upload body, the processing environment
once the bytes are on disk, and the temporary file's generated name. -/
structure UploadEnv where
  filename : String
  readUpload : Except String String
  procEnv : Env
  tempName : String
  export_type : String

/-- `tempfile.NamedTemporaryFile(delete=False)` with `try/finally
os.unlink`: the body runs with the temporary file on disk, and the
`finally` clause removes it whether the body returned normally or raised. -/
def withTempFile
    (body : TempFs → Except HttpError DocumentProcessingResult × TempFs) :
    Except HttpError DocumentProcessingResult × TempFs :=
  let st := body { tempExists := true }
  (st.1, { st.2 with tempExists := false })

/-- The `/process-document` upload endpoint: reject a missing filename or
an unsupported extension with a 400 before any file is created; otherwise
write the upload to a temporary file, process it, and remove the file
afterwards.  A failure while reading the upload body becomes a 500 raised
through the `except` clause, still passing through the `finally`. -/
def process_document_endpoint (env : UploadEnv) :
    Except HttpError DocumentProcessingResult × TempFs :=
  if env.filename = "" then
    (.error ⟨400, "No file provided"⟩, { tempExists := false })
  else
    let file_extension := pyLower (pySuffix env.filename)
    if file_extension ∉ supported_formats then
      (.error ⟨400, "Unsupported file format: " ++ file_extension⟩,
       { tempExists := false })
    else
      withTempFile fun fs =>
        match env.readUpload with
        | .error e => (.error ⟨500, "Error processing document: " ++ e⟩, fs)
        | .ok _ =>
          (.ok (process_document env.procEnv env.tempName env.export_type), fs)

/-! ## Properties of `stripC` -/

theorem length_stripC_le (l : List Char) : (stripC l).length ≤ l.length :=
  le_trans ( List.rdropWhile_prefix pyIsSpace (l.dropWhile pyIsSpace)).length_le
    ( List.dropWhile_suffix pyIsSpace).length_le

theorem stripC_head_not_space {l : List Char} {a : Char} {y : List Char}
    (h : stripC l = a :: y) : pyIsSpace a = false := by
  obtain ⟨t, ht⟩ := List.rdropWhile_prefix pyIsSpace (l.dropWhile pyIsSpace)
  rw [show (l.dropWhile pyIsSpace).rdropWhile pyIsSpace = stripC l from rfl, h,
    List.cons_append] at ht
  have hne : l.dropWhile pyIsSpace ≠ [] := by rw [← ht]; simp
  have hhead := List.head_dropWhile_not pyIsSpace l hne
  have : (l.dropWhile pyIsSpace).head hne = a := by
    simp only [← ht, List.head_cons]
  rw [this] at hhead
  exact hhead

theorem dropWhile_stripC (l : List Char) :
    (stripC l).dropWhile pyIsSpace = stripC l := by
  rcases h : stripC l with _ | ⟨a, y⟩
  · rfl
  · rw [List.dropWhile_cons, stripC_head_not_space h]
    simp

theorem rdropWhile_stripC (l : List Char) :
    (stripC l).rdropWhile pyIsSpace = stripC l :=
  List.rdropWhile_idempotent pyIsSpace (l.dropWhile pyIsSpace)

theorem stripC_idem (l : List Char) : stripC (stripC l) = stripC l := by
  show ((stripC l).dropWhile pyIsSpace).rdropWhile pyIsSpace = stripC l
  rw [dropWhile_stripC, rdropWhile_stripC]

theorem stripC_append_newline (l : List Char) :
    stripC (l ++ ['\n']) = stripC l := by
  show ((l ++ ['\n']).dropWhile pyIsSpace).rdropWhile pyIsSpace = stripC l
  rw [List.dropWhile_append]
  rcases h : l.dropWhile pyIsSpace with _ | ⟨a, y⟩
  · rw [List.isEmpty_nil, if_pos rfl]
    have h2 : List.dropWhile pyIsSpace ['\n'] = [] := by decide
    rw [h2, List.rdropWhile_nil]
    unfold stripC
    rw [h, List.rdropWhile_nil]
  · rw [List.isEmpty_cons, if_neg (by simp)]
    rw [show a :: y ++ ['\n'] = (a :: y) ++ ['\n'] from rfl]
    rw [List.rdropWhile_concat_pos pyIsSpace _ '\n' (by decide)]
    unfold stripC
    rw [h]

theorem dropWhile_eq_self_of_stripC_eq {l : List Char} (h : stripC l = l) :
    l.dropWhile pyIsSpace = l := by
  have h1 : l.length ≤ (l.dropWhile pyIsSpace).length := by
    conv_lhs => rw [← h]
    exact ( List.rdropWhile_prefix pyIsSpace (l.dropWhile pyIsSpace)).length_le
  exact ( List.dropWhile_suffix pyIsSpace).eq_of_length
    (le_antisymm ( List.dropWhile_suffix pyIsSpace).length_le h1)

theorem rdropWhile_eq_self_of_stripC_eq {l : List Char} (h : stripC l = l) :
    l.rdropWhile pyIsSpace = l := by
  conv_rhs => rw [← h]
  show _ = (l.dropWhile pyIsSpace).rdropWhile pyIsSpace
  rw [dropWhile_eq_self_of_stripC_eq h]

/-! ## Properties of `splitNl`, `joinNlC` and `accum` -/

theorem splitNl_ne_nil (l : List Char) : splitNl l ≠ [] := by
  cases l with
  | nil => simp [splitNl]
  | cons c rest =>
    unfold splitNl
    split
    · simp
    · rcases h : splitNl rest with _ | ⟨g, gs⟩ <;> simp

theorem joinNlC_cons_cons (x y : List Char) (z : List (List Char)) :
    joinNlC (x :: y :: z) = x ++ '\n' :: joinNlC (y :: z) := rfl

theorem joinNlC_cons_of_ne (x : List Char) {z : List (List Char)} (hz : z ≠ []) :
    joinNlC (x :: z) = x ++ '\n' :: joinNlC z := by
  cases z with
  | nil => exact absurd rfl hz
  | cons y z' => rfl

theorem joinNlC_ne_nil {x : List Char} (hx : x ≠ []) (rest : List (List Char)) :
    joinNlC (x :: rest) ≠ [] := by
  cases rest with
  | nil => exact hx
  | cons y z =>
    rw [joinNlC_cons_cons]
    cases x with
    | nil => exact absurd rfl hx
    | cons a t => simp

theorem joinNlC_splitNl (l : List Char) : joinNlC (splitNl l) = l := by
  induction l with
  | nil => rfl
  | cons c rest ih =>
    unfold splitNl
    by_cases hc : c = '\n'
    · rw [if_pos hc]
      rw [joinNlC_cons_of_ne [] (splitNl_ne_nil rest), ih, hc]
      rfl
    · rw [if_neg hc]
      rcases h : splitNl rest with _ | ⟨g, gs⟩
      · exact absurd h (splitNl_ne_nil rest)
      · rw [h] at ih
        cases gs with
        | nil => simp only [joinNlC] at ih ⊢; rw [ih]
        | cons g' gs' =>
          rw [joinNlC_cons_cons] at ih ⊢
          simp only [List.cons_append, ih]

theorem joinNlC_append {as bs : List (List Char)} (ha : as ≠ []) (hb : bs ≠ []) :
    joinNlC (as ++ bs) = joinNlC as ++ '\n' :: joinNlC bs := by
  induction as with
  | nil => exact absurd rfl ha
  | cons x as' ih =>
    cases as' with
    | nil =>
      cases bs with
      | nil => exact absurd rfl hb
      | cons b bs' => rfl
    | cons y as'' =>
      rw [List.cons_append, joinNlC_cons_of_ne x (by simp),
        joinNlC_cons_cons, ih (by simp) ]
      simp

theorem accum_nil : accum [] = [] := rfl

theorem accum_singleton (g : List Char) : accum [g] = g ++ ['\n'] := by
  simp [accum]

theorem accum_append_singleton (gs : List (List Char)) (g : List Char) :
    accum (gs ++ [g]) = accum gs ++ (g ++ ['\n']) := by
  simp [accum]

theorem accum_eq_joinNlC {gs : List (List Char)} (h : gs ≠ []) :
    accum gs = joinNlC gs ++ ['\n'] := by
  induction gs with
  | nil => exact absurd rfl h
  | cons g gs' ih =>
    cases gs' with
    | nil => simp [accum, joinNlC]
    | cons g' gs'' =>
      rw [joinNlC_cons_cons]
      have : accum (g :: g' :: gs'') = (g ++ ['\n']) ++ accum (g' :: gs'') := by
        simp [accum]
      rw [this, ih (by simp)]
      simp

/-! ## Good lines: non-empty and already stripped -/

theorem exists_head_not_space {g : List Char} (hg : g ≠ [])
    (hsg : stripC g = g) : ∃ a t, g = a :: t ∧ pyIsSpace a = false := by
  obtain ⟨a, t, rfl⟩ := List.exists_cons_of_ne_nil hg
  refine ⟨a, t, rfl, ?_⟩
  have hdw := dropWhile_eq_self_of_stripC_eq hsg
  cases h : pyIsSpace a
  · rfl
  · rw [List.dropWhile_cons, if_pos h] at hdw
    have hlen := congrArg List.length hdw
    have hle : (t.dropWhile pyIsSpace).length ≤ t.length :=
      ( List.dropWhile_suffix pyIsSpace).length_le
    simp at hlen
    omega

theorem rdropWhile_cons_of_ne {α : Type} (p : α → Bool) (c : α) {z : List α}
    (hz : z.rdropWhile p ≠ []) : (c :: z).rdropWhile p = c :: z.rdropWhile p := by
  unfold List.rdropWhile at hz ⊢
  rw [List.reverse_cons, List.dropWhile_append]
  have hne : (z.reverse.dropWhile p).isEmpty = false := by
    rcases h : z.reverse.dropWhile p with _ | _
    · rw [h] at hz; simp at hz
    · rfl
  rw [hne]
  simp

theorem rdropWhile_append_of_ne {α : Type} (p : α → Bool) (x : List α)
    {y : List α} (hy : y.rdropWhile p ≠ []) :
    (x ++ y).rdropWhile p = x ++ y.rdropWhile p := by
  unfold List.rdropWhile at hy ⊢
  rw [List.reverse_append, List.dropWhile_append]
  have hne : (y.reverse.dropWhile p).isEmpty = false := by
    rcases h : y.reverse.dropWhile p with _ | _
    · rw [h] at hy; simp at hy
    · rfl
  rw [hne]
  simp

theorem rdropWhile_joinNlC {gs : List (List Char)} (hne : gs ≠ [])
    (hgood : ∀ g ∈ gs, g ≠ [] ∧ stripC g = g) :
    (joinNlC gs).rdropWhile pyIsSpace = joinNlC gs := by
  induction gs with
  | nil => exact absurd rfl hne
  | cons g gs' ih =>
    cases gs' with
    | nil =>
      exact rdropWhile_eq_self_of_stripC_eq (hgood g (by simp)).2
    | cons g' gs'' =>
      rw [joinNlC_cons_cons]
      have hih := ih (by simp) (fun x hx => hgood x (List.mem_cons_of_mem _ hx))
      have hz : joinNlC (g' :: gs'') ≠ [] :=
        joinNlC_ne_nil (hgood g' (by simp)).1 gs''
      have hz2 : (joinNlC (g' :: gs'')).rdropWhile pyIsSpace ≠ [] := by
        rw [hih]; exact hz
      have h1 : ('\n' :: joinNlC (g' :: gs'')).rdropWhile pyIsSpace
          = '\n' :: joinNlC (g' :: gs'') := by
        rw [rdropWhile_cons_of_ne pyIsSpace '\n' hz2, hih]
      have hy2 : ('\n' :: joinNlC (g' :: gs'')).rdropWhile pyIsSpace ≠ [] := by
        rw [h1]; simp
      rw [rdropWhile_append_of_ne pyIsSpace g hy2, h1]

theorem dropWhile_joinNlC {g : List Char} (rest : List (List Char))
    (hg : g ≠ []) (hsg : stripC g = g) :
    (joinNlC (g :: rest)).dropWhile pyIsSpace = joinNlC (g :: rest) := by
  obtain ⟨a, t, hgat, ha⟩ := exists_head_not_space hg hsg
  cases rest with
  | nil =>
    show g.dropWhile pyIsSpace = g
    rw [hgat, List.dropWhile_cons, ha]
    simp
  | cons y z =>
    rw [joinNlC_cons_cons, hgat, List.cons_append, List.dropWhile_cons, ha]
    simp

theorem stripC_joinNlC {gs : List (List Char)} (hne : gs ≠ [])
    (hgood : ∀ g ∈ gs, g ≠ [] ∧ stripC g = g) :
    stripC (joinNlC gs) = joinNlC gs := by
  cases gs with
  | nil => exact absurd rfl hne
  | cons g gs' =>
    show ((joinNlC (g :: gs')).dropWhile pyIsSpace).rdropWhile pyIsSpace = _
    rw [dropWhile_joinNlC gs' (hgood g (by simp)).1 (hgood g (by simp)).2]
    exact rdropWhile_joinNlC (by simp) hgood

theorem stripC_accum {gs : List (List Char)} (hne : gs ≠ [])
    (hgood : ∀ g ∈ gs, g ≠ [] ∧ stripC g = g) :
    stripC (accum gs) = joinNlC gs := by
  rw [accum_eq_joinNlC hne, stripC_append_newline]
  exact stripC_joinNlC hne hgood

/-! ## Core facts about the chunking loop -/

theorem chunkCore_map_fst (lines : List (List Char)) :
    ∀ cur id, (chunkCore lines cur id).map Prod.fst
      = List.range' id (chunkCore lines cur id).length := by
  induction lines with
  | nil =>
    intro cur id
    simp only [chunkCore]
    split
    · simp
    · simp [List.range'_succ]
  | cons line rest ih =>
    intro cur id
    simp only [chunkCore]
    split
    · split
      · exact ih _ id
      · simp only [List.map_cons, List.length_cons, List.range'_succ]
        rw [ih _ (id + 1)]
    · exact ih _ id

theorem chunkCore_mem_stripped (lines : List (List Char)) :
    ∀ cur id, ∀ p ∈ chunkCore lines cur id,
      ∃ b, stripC b ≠ [] ∧ p.2 = stripC b := by
  induction lines with
  | nil =>
    intro cur id p hp
    simp only [chunkCore] at hp
    split at hp
    · simp at hp
    · rename_i hs
      simp only [List.mem_singleton] at hp
      exact ⟨cur, hs, by rw [hp]⟩
  | cons line rest ih =>
    intro cur id p hp
    simp only [chunkCore] at hp
    split at hp
    · split at hp
      · exact ih _ _ p hp
      · rename_i hs
        rcases List.mem_cons.mp hp with h | h
        · exact ⟨cur, hs, by rw [h]⟩
        · exact ih _ _ p h
    · exact ih _ _ p hp

theorem chunkCore_content (allLines : List (List Char)) :
    ∀ (lines : List (List Char)) (cur : List Char) (id : Nat),
      (∀ l ∈ lines, l ∈ allLines) →
      ((stripC cur).length ≤ 500 ∨
        ∃ l ∈ allLines, 500 < l.length ∧ cur = l ++ ['\n']) →
      ∀ p ∈ chunkCore lines cur id,
        p.2.length ≤ 500 ∨ ∃ l ∈ allLines, 500 < l.length ∧ p.2 = stripC l := by
  intro lines
  induction lines with
  | nil =>
    intro cur id _ hinv p hp
    simp only [chunkCore] at hp
    split at hp
    · simp at hp
    · simp only [List.mem_singleton] at hp
      rcases hinv with h | ⟨l, hl, hlen, hcur⟩
      · left; rw [hp]; exact h
      · right; exact ⟨l, hl, hlen, by rw [hp, hcur]; exact stripC_append_newline l⟩
  | cons line rest ih =>
    intro cur id hsub hinv p hp
    have hsubr : ∀ l ∈ rest, l ∈ allLines := fun l hl => hsub l (by simp [hl])
    have hlinemem : line ∈ allLines := hsub line (by simp)
    have hnewinv : (stripC (line ++ ['\n'])).length ≤ 500 ∨
        ∃ l ∈ allLines, 500 < l.length ∧ line ++ ['\n'] = l ++ ['\n'] := by
      by_cases hlen : 500 < line.length
      · right; exact ⟨line, hlinemem, hlen, rfl⟩
      · left
        rw [stripC_append_newline]
        exact le_trans (length_stripC_le line) (by omega)
    simp only [chunkCore] at hp
    split at hp
    · split at hp
      · exact ih _ _ hsubr hnewinv p hp
      · rcases List.mem_cons.mp hp with h | h
        · rcases hinv with hc | ⟨l, hl, hlen, hcur⟩
          · left; rw [h]; exact hc
          · right
            exact ⟨l, hl, hlen, by rw [h, hcur]; exact stripC_append_newline l⟩
        · exact ih _ _ hsubr hnewinv p h
    · rename_i hc
      have hle : cur.length + line.length ≤ 500 := by omega
      have : (stripC (cur ++ line ++ ['\n'])).length ≤ 500 := by
        rw [List.append_assoc, ← List.append_assoc, stripC_append_newline]
        calc (stripC (cur ++ line)).length ≤ (cur ++ line).length :=
              length_stripC_le _
          _ ≤ 500 := by simp [List.length_append]; omega
      exact ih _ _ hsubr (Or.inl this) p hp

theorem chunkCore_join (lines : List (List Char)) :
    ∀ (gs : List (List Char)) (id : Nat),
      (∀ l ∈ lines, l ≠ [] ∧ stripC l = l) →
      (∀ g ∈ gs, g ≠ [] ∧ stripC g = g) →
      joinNlC ((chunkCore lines (accum gs) id).map Prod.snd)
        = joinNlC (gs ++ lines) := by
  induction lines with
  | nil =>
    intro gs id _ hgs
    rw [List.append_nil]
    simp only [chunkCore]
    cases gs with
    | nil =>
      rw [accum_nil]
      simp [stripC, joinNlC]
    | cons g gs' =>
      have hsa : stripC (accum (g :: gs')) = joinNlC (g :: gs') :=
        stripC_accum (by simp) hgs
      have hnn : joinNlC (g :: gs') ≠ [] := joinNlC_ne_nil (hgs g (by simp)).1 gs'
      rw [if_neg (by rw [hsa]; exact hnn), hsa]
      rfl
  | cons line rest ih =>
    intro gs id hlines hgs
    have hline := hlines line (by simp)
    have hrest : ∀ l ∈ rest, l ≠ [] ∧ stripC l = l :=
      fun l hl => hlines l (by simp [hl])
    have hlinegood : ∀ g ∈ [line], g ≠ [] ∧ stripC g = g := by
      intro g hg
      rw [List.mem_singleton] at hg
      rw [hg]; exact hline
    simp only [chunkCore]
    by_cases hc : (accum gs).length + line.length > 500
    · rw [if_pos hc]
      by_cases hstrip : stripC (accum gs) = []
      · rw [if_pos hstrip]
        have hgs0 : gs = [] := by
          cases gs with
          | nil => rfl
          | cons g gs' =>
            rw [stripC_accum (by simp) hgs] at hstrip
            exact absurd hstrip (joinNlC_ne_nil (hgs g (by simp)).1 gs')
        subst hgs0
        rw [show line ++ ['\n'] = accum [line] from (accum_singleton line).symm]
        rw [ih [line] id hrest hlinegood]
        simp
      · rw [if_neg hstrip]
        have hgsne : gs ≠ [] := by
          intro h; subst h; exact hstrip rfl
        have hsa : stripC (accum gs) = joinNlC gs := stripC_accum hgsne hgs
        rw [List.map_cons, hsa]
        rw [show line ++ ['\n'] = accum [line] from (accum_singleton line).symm]
        have hih := ih [line] (id + 1) hrest hlinegood
        have hrecne : (chunkCore rest (accum [line]) (id + 1)).map Prod.snd ≠ [] := by
          intro hcon
          rw [hcon] at hih
          have hjl : joinNlC ([line] ++ rest) ≠ [] := by
            rw [List.singleton_append]
            exact joinNlC_ne_nil hline.1 rest
          exact hjl hih.symm
        rw [joinNlC_cons_of_ne _ hrecne, hih]
        rw [List.singleton_append]
        exact (joinNlC_append hgsne (by simp)).symm
    · rw [if_neg hc]
      rw [show accum gs ++ line ++ ['\n'] = accum (gs ++ [line]) by
        rw [accum_append_singleton, List.append_assoc]]
      rw [ih (gs ++ [line]) id hrest (by
        intro g hg
        rcases List.mem_append.mp hg with h | h
        · exact hgs g h
        · rw [List.mem_singleton] at h
          rw [h]; exact hline)]
      rw [List.append_assoc, List.singleton_append]

theorem foldl_refStep_out (lines : List (List Char)) :
    ∀ (buf : List Char) (id : Nat) (acc : List (Nat × List Char)),
      (flushBuf (lines.foldl refStep ⟨buf, id, acc⟩)).out
        = acc ++ chunkCore lines buf id := by
  induction lines with
  | nil =>
    intro buf id acc
    simp only [List.foldl_nil, chunkCore, flushBuf]
    split
    · simp
    · simp
  | cons line rest ih =>
    intro buf id acc
    rw [List.foldl_cons]
    by_cases hc : buf.length + line.length > 500
    · by_cases hs : stripC buf = []
      · have hstep : refStep ⟨buf, id, acc⟩ line = ⟨line ++ ['\n'], id, acc⟩ := by
          unfold refStep flushBuf
          rw [if_pos hc, if_pos hs]
        rw [hstep, ih]
        simp only [chunkCore]
        rw [if_pos hc, if_pos hs]
      · have hstep : refStep ⟨buf, id, acc⟩ line
            = ⟨line ++ ['\n'], id + 1, acc ++ [(id, stripC buf)]⟩ := by
          unfold refStep flushBuf
          rw [if_pos hc, if_neg hs]
        rw [hstep, ih]
        simp only [chunkCore]
        rw [if_pos hc, if_neg hs, List.append_assoc, List.singleton_append]
    · have hstep : refStep ⟨buf, id, acc⟩ line = ⟨buf ++ line ++ ['\n'], id, acc⟩ := by
        unfold refStep
        rw [if_neg hc]
      rw [hstep, ih]
      simp only [chunkCore]
      rw [if_neg hc]

/-! ## Bridging to the string level -/

theorem joinNl_map_mk (xs : List (List Char)) :
    joinNl (xs.map String.mk) = String.mk (joinNlC xs) := by
  induction xs with
  | nil => rfl
  | cons x ys ih =>
    cases ys with
    | nil => rfl
    | cons y z =>
      show String.mk x ++ "\n" ++ joinNl ((y :: z).map String.mk) = _
      rw [ih]
      apply String.ext
      rw [joinNlC_cons_cons]
      rw [String.data_append, String.data_append]
      show x ++ "\n".data ++ joinNlC (y :: z) = x ++ '\n' :: joinNlC (y :: z)
      rw [show ("\n" : String).data = ['\n'] from rfl, List.append_assoc]
      rfl

theorem txtChunks_map_content (content fp : String) :
    (txtChunks content fp).map (fun c => c.content)
      = ((chunkCore (splitNl content.data) [] 0).map Prod.snd).map String.mk := by
  rw [txtChunks, List.map_map, List.map_map]
  rfl

theorem txtChunks_map_ids (content fp : String) :
    (txtChunks content fp).map (fun c => c.chunk_id)
      = List.range (txtChunks content fp).length := by
  rw [txtChunks, List.map_map, List.length_map, List.range_eq_range']
  exact chunkCore_map_fst (splitNl content.data) [] 0

/-! ## Claims about the `.txt` chunker -/

/-- C1, counterexample: on the one-line file `" a"` the only chunk's content
is the stripped `"a"`, so concatenating the chunks does not reproduce the
original line sequence. -/
theorem txt_chunks_reassemble_ce :
    joinNl ((txtChunks " a" "f.txt").map (fun c => c.content)) ≠ " a" := by
  decide

/-- C1 (amended): for a `.txt` file every one of whose lines is non-empty
and free of leading/trailing whitespace, concatenating the contents of all
chunks returned by the chunks export, in chunk id order and separated by
newlines, reproduces the file exactly. -/
theorem txt_chunks_reassemble (content fp : String)
    (h : ∀ l ∈ pySplit content, l ≠ "" ∧ pyStrip l = l) :
    joinNl ((txtChunks content fp).map (fun c => c.content)) = content := by
  have hcore : ∀ lc ∈ splitNl content.data, lc ≠ [] ∧ stripC lc = lc := by
    intro lc hlc
    have hm : String.mk lc ∈ pySplit content := List.mem_map_of_mem _ hlc
    refine ⟨?_, ?_⟩
    · intro hnil
      exact (h _ hm).1 (by rw [hnil])
    · exact congrArg String.data (h _ hm).2
  have hjoin := chunkCore_join (splitNl content.data) [] 0 hcore (by simp)
  rw [accum_nil, List.nil_append, joinNlC_splitNl] at hjoin
  rw [txtChunks_map_content, joinNl_map_mk, hjoin]

/-- C1, witness instantiation of the amended theorem. -/
theorem txt_chunks_reassemble_wit :
    (∀ l ∈ pySplit "hello\nworld", l ≠ "" ∧ pyStrip l = l) ∧
      joinNl ((txtChunks "hello\nworld" "f.txt").map (fun c => c.content))
        = "hello\nworld" :=
  ⟨by decide, txt_chunks_reassemble "hello\nworld" "f.txt" (by decide)⟩

set_option maxRecDepth 40000 in
/-- C2, counterexample: a single 502-character line `" aaa…a"` (one space
then 501 `a`s) is longer than 500 characters, and the chunk built from it
contains the stripped line (501 `a`s), which exceeds 500 characters but is
not equal to any source line — so the emitted content is not "that line
alone". -/
theorem txt_chunk_size_ce :
    ∃ c ∈ txtChunks (String.mk (' ' :: List.replicate 501 'a')) "f.txt",
      500 < c.content.length ∧
        ∀ l ∈ pySplit (String.mk (' ' :: List.replicate 501 'a')),
          c.content ≠ l := by
  decide

/-- C2 (amended): every chunk returned by the `.txt` chunks export has
content of at most 500 characters, except that a source line longer than
500 characters forms a chunk by itself whose content is that line stripped
of leading and trailing whitespace. -/
theorem txt_chunk_size_bound (content fp : String) (c : ChunkRec)
    (hc : c ∈ txtChunks content fp) :
    c.content.length ≤ 500 ∨
      ∃ l ∈ pySplit content, 500 < l.length ∧ c.content = pyStrip l := by
  simp only [txtChunks, List.mem_map] at hc
  obtain ⟨p, hp, hcp⟩ := hc
  have hinit : (stripC ([] : List Char)).length ≤ 500 ∨
      ∃ l ∈ splitNl content.data, 500 < l.length ∧ ([] : List Char) = l ++ ['\n'] :=
    Or.inl (by simp [stripC])
  have hmain := chunkCore_content (splitNl content.data) (splitNl content.data)
    [] 0 (fun l hl => hl) hinit p hp
  rcases hmain with hle | ⟨l, hl, hlen, heq⟩
  · left
    rw [← hcp]
    exact hle
  · right
    refine ⟨String.mk l, List.mem_map_of_mem _ hl, hlen, ?_⟩
    rw [← hcp]
    show String.mk p.2 = pyStrip (String.mk l)
    rw [heq]
    rfl

/-- C2, witness instantiation of the amended theorem. -/
theorem txt_chunk_size_bound_wit :
    (⟨0, "hello", [("chunk_index", .n 0), ("source", .s "f.txt")]⟩ : ChunkRec)
        ∈ txtChunks "hello" "f.txt" ∧
      ((⟨0, "hello", [("chunk_index", .n 0), ("source", .s "f.txt")]⟩ : ChunkRec).content.length ≤ 500 ∨
        ∃ l ∈ pySplit "hello", 500 < l.length ∧
          (⟨0, "hello", [("chunk_index", .n 0), ("source", .s "f.txt")]⟩ : ChunkRec).content = pyStrip l) :=
  ⟨by decide, txt_chunk_size_bound "hello" "f.txt" _ (by decide)⟩

/-- C3, counterexample: on the whitespace-only file `" "` the trailing
buffer is non-empty, so the spec's reference algorithm flushes it as a
final chunk, but the code discards it because its stripped form is empty —
the code does not follow the reference algorithm as stated. -/
theorem spec_chunker_differs :
    chunkCore (splitNl (" ".data)) [] 0
      ≠ specChunkCore (splitNl (" ".data)) [] 0 := by
  decide

/-- C3 (amended): the `.txt` chunker follows the reference algorithm with
stripping made explicit — lines are greedily accumulated into a buffer (each
line followed by its newline); a chunk is flushed exactly when the buffer's
length plus the next line's length exceeds 500; emitted buffers are
whitespace-stripped and whitespace-only buffers are discarded without
consuming an id; ids increase monotonically from 0; the trailing buffer is
flushed the same way. -/
theorem chunker_eq_ref (content fp : String) :
    txtChunks content fp = refTxtChunks content fp := by
  rw [txtChunks, refTxtChunks, refChunks]
  rw [foldl_refStep_out (splitNl content.data) [] 0 []]
  rw [List.nil_append]

/-- C10: every chunk emitted by the `.txt` chunker has non-empty content
with no leading or trailing whitespace (buffers are stripped on emission and
whitespace-only buffers are discarded). -/
theorem txt_chunks_nonempty_stripped (content fp : String) (c : ChunkRec)
    (hc : c ∈ txtChunks content fp) :
    c.content ≠ "" ∧ pyStrip c.content = c.content := by
  simp only [txtChunks, List.mem_map] at hc
  obtain ⟨p, hp, hcp⟩ := hc
  obtain ⟨b, hb, hpb⟩ := chunkCore_mem_stripped (splitNl content.data) [] 0 p hp
  constructor
  · rw [← hcp]
    show String.mk p.2 ≠ ""
    rw [hpb]
    intro hcon
    exact hb (congrArg String.data hcon)
  · rw [← hcp]
    show pyStrip (String.mk p.2) = String.mk p.2
    rw [hpb]
    show String.mk (stripC (stripC b)) = String.mk (stripC b)
    rw [stripC_idem]

/-- C10, witness instantiation. -/
theorem txt_chunks_nonempty_stripped_wit :
    (⟨0, "hi", [("chunk_index", .n 0), ("source", .s "f.txt")]⟩ : ChunkRec)
        ∈ txtChunks " hi " "f.txt" ∧
      ((⟨0, "hi", [("chunk_index", .n 0), ("source", .s "f.txt")]⟩ : ChunkRec).content ≠ ""
        ∧ pyStrip (⟨0, "hi", [("chunk_index", .n 0), ("source", .s "f.txt")]⟩ : ChunkRec).content
            = (⟨0, "hi", [("chunk_index", .n 0), ("source", .s "f.txt")]⟩ : ChunkRec).content) :=
  ⟨by decide, txt_chunks_nonempty_stripped " hi " "f.txt" _ (by decide)⟩

/-! ## Claims about `process_document` result shaping -/

theorem process_document_shape (env : Env) (fp et : String) :
    (∃ e, process_document env fp et = errResult e) ∨
    ((process_document env fp et).success = true ∧
      (process_document env fp et).error = none) := by
  simp only [process_document]
  split
  · exact Or.inl ⟨_, rfl⟩
  · split
    · split
      · exact Or.inl ⟨_, rfl⟩
      · split
        · exact Or.inr ⟨rfl, rfl⟩
        · exact Or.inr ⟨rfl, rfl⟩
    · split
      · exact Or.inl ⟨_, rfl⟩
      · split
        · exact Or.inl ⟨_, rfl⟩
        · split
          · exact Or.inr ⟨rfl, rfl⟩
          · exact Or.inr ⟨rfl, rfl⟩

/-- C4, counterexample: processing an empty `.txt` file succeeds with
`success=true` but empty `markdown_content` and no error, so neither "error
set and success=false" nor "success=true and markdown_content populated"
holds — the claimed exactly-one invariant fails. -/
theorem result_success_error_ce :
    ¬((((process_document ⟨true, Except.ok "", 0, Except.ok []⟩ "a.txt" "markdown").error ≠ none ∧
        (process_document ⟨true, Except.ok "", 0, Except.ok []⟩ "a.txt" "markdown").success = false) ∧
       ¬((process_document ⟨true, Except.ok "", 0, Except.ok []⟩ "a.txt" "markdown").success = true ∧
         (process_document ⟨true, Except.ok "", 0, Except.ok []⟩ "a.txt" "markdown").markdown_content ≠ "")) ∨
      (((process_document ⟨true, Except.ok "", 0, Except.ok []⟩ "a.txt" "markdown").success = true ∧
        (process_document ⟨true, Except.ok "", 0, Except.ok []⟩ "a.txt" "markdown").markdown_content ≠ "") ∧
       ¬((process_document ⟨true, Except.ok "", 0, Except.ok []⟩ "a.txt" "markdown").error ≠ none ∧
         (process_document ⟨true, Except.ok "", 0, Except.ok []⟩ "a.txt" "markdown").success = false))) := by
  decide

/-- C4 (amended): every `process_document` result satisfies exactly one of
"error is set and success=false" or "success=true and error is unset";
`markdown_content` may be empty on success (for instance for an empty
`.txt` file). -/
theorem result_success_error_exclusive (env : Env) (fp et : String) :
    (((process_document env fp et).error ≠ none ∧
        (process_document env fp et).success = false) ∧
      ¬((process_document env fp et).success = true ∧
        (process_document env fp et).error = none)) ∨
    (((process_document env fp et).success = true ∧
        (process_document env fp et).error = none) ∧
      ¬((process_document env fp et).error ≠ none ∧
        (process_document env fp et).success = false)) := by
  rcases process_document_shape env fp et with ⟨e, he⟩ | ⟨hs, hn⟩
  · left
    rw [he]
    refine ⟨⟨by simp [errResult], rfl⟩, ?_⟩
    rintro ⟨hcon, -⟩
    simp [errResult] at hcon
  · right
    refine ⟨⟨hs, hn⟩, ?_⟩
    rintro ⟨hcon, -⟩
    exact hcon hn

/-- C5: whenever a `process_document` result carries a chunks list — the
`.txt` chunking path or the loader chunks path — the `chunk_id` values form
the contiguous sequence `0, 1, 2, …` in emission order, with no gaps and no
repeats. -/
theorem chunk_ids_contiguous (env : Env) (fp et : String) (cs : List ChunkRec)
    (h : (process_document env fp et).chunks = some cs) :
    cs.map (fun c => c.chunk_id) = List.range cs.length := by
  simp only [process_document] at h
  split at h
  · simp [errResult] at h
  · split at h
    · split at h
      · simp [errResult] at h
      · split at h
        · simp only [Option.some.injEq] at h
          rw [← h]
          exact txtChunks_map_ids _ fp
        · simp at h
    · split at h
      · simp [errResult] at h
      · split at h
        · simp [errResult] at h
        · split at h
          · simp only [Option.some.injEq] at h
            rw [← h, List.map_map, List.length_map]
            have hcomp : ((fun c : ChunkRec => c.chunk_id) ∘ fun p : Nat × Doc =>
                ChunkRec.mk p.1 p.2.page_content p.2.metadata) = Prod.fst := rfl
            rw [hcomp, List.enum_map_fst, List.enum_length]
          · simp at h

/-- C5, witness instantiation. -/
theorem chunk_ids_contiguous_wit :
    (process_document ⟨true, Except.ok "hi", 2, Except.ok []⟩ "a.txt" "chunks").chunks
        = some [⟨0, "hi", [("chunk_index", .n 0), ("source", .s "a.txt")]⟩] ∧
      ([(⟨0, "hi", [("chunk_index", .n 0), ("source", .s "a.txt")]⟩ : ChunkRec)].map
          (fun c => c.chunk_id))
        = List.range [(⟨0, "hi", [("chunk_index", .n 0), ("source", .s "a.txt")]⟩ : ChunkRec)].length :=
  ⟨by decide, chunk_ids_contiguous ⟨true, Except.ok "hi", 2, Except.ok []⟩
    "a.txt" "chunks" _ (by decide)⟩

/-- C6: whenever the body of `process_document` raises an exception
(missing file, read failure, loader failure, empty loader result), the
call returns — it never propagates the exception, being a total function —
with `success=false`, empty `markdown_content`, empty metadata, and the
exception's string representation as `error`. -/
theorem exceptions_become_error_results (env : Env) (fp et e : String)
    (h : raisedError env fp = some e) :
    process_document env fp et = errResult e := by
  by_cases hex : env.fileExists = true
  · by_cases hsuf : pyLower (pySuffix fp) = ".txt"
    · rcases hr : env.readResult with er | content
      · simp only [raisedError, hex, hsuf, hr, Bool.not_true, Bool.false_eq_true,
          if_false, if_true, if_pos, Option.some.injEq] at h
        simp [process_document, hex, hsuf, hr, h]
      · simp [raisedError, hex, hsuf, hr] at h
    · rcases hl : env.loaderResult with er | docs
      · simp only [raisedError, hex, hsuf, hl, Bool.not_true, Bool.false_eq_true,
          if_false, if_neg, Option.some.injEq] at h
        simp [process_document, hex, hsuf, hl, h]
      · by_cases hd : docs.isEmpty = true
        · simp only [raisedError, hex, hsuf, hl, hd, Bool.not_true, Bool.false_eq_true,
            if_false, if_true, Option.some.injEq] at h
          simp [process_document, hex, hsuf, hl, hd, h]
        · simp [raisedError, hex, hsuf, hl, hd] at h
  · have hex' : env.fileExists = false := by
      cases hb : env.fileExists
      · rfl
      · exact absurd hb hex
    simp only [raisedError, hex', Bool.not_false, if_true, Option.some.injEq] at h
    simp [process_document, hex', h]

/-- C6, witness instantiation: a missing file. -/
theorem exceptions_become_error_results_wit :
    raisedError ⟨false, Except.ok "", 0, Except.ok []⟩ "x.txt"
        = some "File not found: x.txt" ∧
      process_document ⟨false, Except.ok "", 0, Except.ok []⟩ "x.txt" "markdown"
        = errResult "File not found: x.txt" :=
  ⟨by decide, exceptions_become_error_results ⟨false, Except.ok "", 0, Except.ok []⟩
    "x.txt" "markdown" "File not found: x.txt" (by decide)⟩

/-- C7: when the external loader returns zero documents for a non-text
file, the result has `success=false` and the non-empty error string
`"No documents were processed"`; no exception reaches the caller (the
embedding is a total function). -/
theorem empty_loader_error (env : Env) (fp et : String)
    (hex : env.fileExists = true) (hsuf : pyLower (pySuffix fp) ≠ ".txt")
    (hl : env.loaderResult = Except.ok []) :
    (process_document env fp et).success = false ∧
      (process_document env fp et).error = some "No documents were processed" := by
  simp [process_document, hex, hsuf, hl, errResult]

/-- C7, witness instantiation. -/
theorem empty_loader_error_wit :
    ((⟨true, Except.ok "", 0, Except.ok []⟩ : Env).fileExists = true ∧
      pyLower (pySuffix "a.pdf") ≠ ".txt" ∧
      (⟨true, Except.ok "", 0, Except.ok []⟩ : Env).loaderResult = Except.ok []) ∧
    ((process_document ⟨true, Except.ok "", 0, Except.ok []⟩ "a.pdf" "markdown").success = false ∧
      (process_document ⟨true, Except.ok "", 0, Except.ok []⟩ "a.pdf" "markdown").error
        = some "No documents were processed") :=
  ⟨⟨rfl, by decide, rfl⟩,
    empty_loader_error ⟨true, Except.ok "", 0, Except.ok []⟩ "a.pdf" "markdown"
      rfl (by decide) rfl⟩

/-- C8: for a readable `.txt` file shorter than 500 characters processed
with `export_type="markdown"`, the result's `markdown_content` equals the
file's raw contents exactly, `success=true`, and `chunks` is absent. -/
theorem txt_markdown_identity (env : Env) (fp content : String)
    (hex : env.fileExists = true) (hsuf : pyLower (pySuffix fp) = ".txt")
    (hr : env.readResult = Except.ok content) (_hlen : content.length < 500) :
    (process_document env fp "markdown").markdown_content = content ∧
      (process_document env fp "markdown").success = true ∧
      (process_document env fp "markdown").chunks = none := by
  have hm : pyLower "markdown" ≠ "chunks" := by decide
  simp [process_document, hex, hsuf, hr, hm]

/-- C8, witness instantiation. -/
theorem txt_markdown_identity_wit :
    (process_document ⟨true, Except.ok "hello", 5, Except.ok []⟩ "a.txt" "markdown").markdown_content = "hello" ∧
      (process_document ⟨true, Except.ok "hello", 5, Except.ok []⟩ "a.txt" "markdown").success = true ∧
      (process_document ⟨true, Except.ok "hello", 5, Except.ok []⟩ "a.txt" "markdown").chunks = none :=
  txt_markdown_identity ⟨true, Except.ok "hello", 5, Except.ok []⟩ "a.txt" "hello"
    rfl (by decide) rfl (by decide)

/-- C9: every `/process-document` request that reaches the processing stage
(non-empty filename, supported extension) ends with the request's
temporary file removed from disk, whether the body returned a result or
raised. -/
theorem temp_file_removed (env : UploadEnv) (h1 : env.filename ≠ "")
    (h2 : pyLower (pySuffix env.filename) ∈ supported_formats) :
    (process_document_endpoint env).2.tempExists = false := by
  simp only [process_document_endpoint]
  rw [if_neg h1, if_neg (by simp [h2])]
  rfl

/-- C9, witness instantiation. -/
theorem temp_file_removed_wit :
    (process_document_endpoint
      ⟨"a.txt", Except.ok "hi", ⟨true, Except.ok "hi", 2, Except.ok []⟩,
        "/tmp/up.txt", "markdown"⟩).2.tempExists = false :=
  temp_file_removed
    ⟨"a.txt", Except.ok "hi", ⟨true, Except.ok "hi", 2, Except.ok []⟩,
      "/tmp/up.txt", "markdown"⟩
    (by decide) (by decide)

end DoclingService
